import Mathlib

/-!
Verification of the Matching & Scoring Engine of the resume analyzer.

Texts are modelled as `List Char`.  Python string operations are embedded as
follows: `str.lower` is `List.map Char.toLower`; the regular expression
substitution `re.sub(r'\W+', ' ', text)` (replace each maximal run of
non-word characters by a single space) is `subNonWord`; `str.strip` is
`stripText`; the Python substring test `s in t` is list infixhood `s <:+: t`;
Python's `round` (round half to even) on exact rational values is `pyround`.
The external sentence-embedding similarity provider is modelled by passing
its scalar output as an explicit rational parameter.
-/

namespace Matcher

/-- Word characters in the sense of the regex class `\w` (ASCII fragment):
letters, digits and underscore. -/
def isWordChar (c : Char) : Bool := c.isAlphanum || c == '_'

/-- Whitespace characters stripped by Python's `str.strip`. -/
def isPySpace (c : Char) : Bool :=
  c == ' ' || c == '\t' || c == '\n' || c == '\r' || c == '\x0b' || c == '\x0c'

/-- Embedding of Python `str.lower` (ASCII case folding). -/
def strLower (l : List Char) : List Char := l.map Char.toLower

theorem length_dropWhile_le (p : Char → Bool) (l : List Char) :
    (l.dropWhile p).length ≤ l.length := by
  induction l with
  | nil => simp
  | cons c t ih =>
    rw [List.dropWhile_cons]
    split
    · simp only [List.length_cons]; omega
    · simp

/-- Embedding of `re.sub(r'\W+', ' ', text)`: every maximal run of non-word
characters is replaced by a single space. -/
def subNonWord : List Char → List Char
  | [] => []
  | c :: rest =>
    if isWordChar c then c :: subNonWord rest
    else ' ' :: subNonWord (rest.dropWhile (fun d => !isWordChar d))
termination_by l => l.length
decreasing_by
all_goals
  first
  | (simp only [List.length_cons]; omega)
  | (have hdw := length_dropWhile_le (fun d => !isWordChar d) rest
     simp only [List.length_cons] at hdw ⊢; omega)

/-- Drop leading whitespace. -/
def stripLeft (l : List Char) : List Char := l.dropWhile isPySpace

/-- Drop trailing whitespace. -/
def stripRight (l : List Char) : List Char := (l.reverse.dropWhile isPySpace).reverse

/-- Embedding of Python `str.strip`. -/
def stripText (l : List Char) : List Char := stripRight (stripLeft l)

/-- Embedding of `preprocess_text` from the source: lower-case, collapse
non-word runs to single spaces, strip surrounding whitespace. -/
def preprocess_text (text : List Char) : List Char :=
  stripText (subNonWord (strLower text))

/-- Python's `round` on an exact rational value: round half to even. -/
def pyround (q : ℚ) : ℤ :=
  if q - ⌊q⌋ < 1 / 2 then ⌊q⌋
  else if 1 / 2 < q - ⌊q⌋ then ⌊q⌋ + 1
  else if 2 ∣ ⌊q⌋ then ⌊q⌋ else ⌊q⌋ + 1

/-- Embedding of `extract_skills` from the source. -/
def extract_skills (resume_text job_desc : List Char) (skills_list : List (List Char)) :
    List (List Char) × List (List Char) :=
  let r := strLower resume_text
  let j := strLower job_desc
  (skills_list.filter (fun s => decide (s <:+: r)),
   skills_list.filter (fun s => decide (s <:+: j) && !decide (s <:+: r)))

/-- Embedding of `compare_resume_with_job` from the source.  The external
similarity provider's scalar output is passed in as `similarity`; the source
only consults it on the branch where both preprocessed texts are non-empty. -/
def compare_resume_with_job (similarity : ℚ) (resume_text job_desc : List Char)
    (skills_list : List (List Char)) :
    Option ℚ × List (List Char) × List (List Char) :=
  let r := preprocess_text resume_text
  let j := preprocess_text job_desc
  if r = [] ∨ j = [] then (none, [], [])
  else
    (some similarity, (extract_skills r j skills_list).1, (extract_skills r j skills_list).2)

/-- The fixed section taxonomy of `check_sections`, in source iteration order. -/
def sections : List (List Char × List (List Char)) :=
  [("Education".toList,
      ["education".toList, "academic background".toList, "qualifications".toList]),
   ("Experience".toList,
      ["experience".toList, "work history".toList, "employment".toList]),
   ("Projects".toList,
      ["projects".toList, "project work".toList, "portfolio".toList]),
   ("Skills".toList,
      ["skills".toList, "technical skills".toList, "core competencies".toList]),
   ("Summary".toList,
      ["summary".toList, "profile".toList, "objective".toList]),
   ("Certifications".toList,
      ["certifications".toList, "licenses".toList])]

/-- One section counts as present when any of its keywords is a substring. -/
def sectionHit (t : List Char) (kws : List (List Char)) : Bool :=
  kws.any (fun k => decide (k <:+: t))

/-- Embedding of `check_sections` from the source: the per-section loop
appends each section name to `found` or `missing` in taxonomy order, which is
the corresponding pair of filters. -/
def check_sections (text : List Char) : List (List Char) × List (List Char) × ℤ :=
  let t := strLower text
  let found := (sections.filter (fun p => sectionHit t p.2)).map Prod.fst
  let missing := (sections.filter (fun p => !sectionHit t p.2)).map Prod.fst
  (found, missing, pyround ((found.length : ℚ) / (sections.length : ℚ) * 100))

/-- The composite score map built at the aggregation site of the source. -/
structure Scores where
  tailoring : ℤ
  content : ℤ
  style : ℤ
  ats : ℤ
  sections : ℤ
deriving DecidableEq

/-- Embedding of the `scores` dictionary construction from the source:
Tailoring is `round(similarity * 100)`, Content is the matched-skill ratio,
Style and ATS Compatibility are the placeholder constants 86 and 100, and
Sections is the score already computed by `check_sections`. -/
def scores (similarity : ℚ) (matched_skills skills_list : List (List Char))
    (section_score : ℤ) : Scores :=
  { tailoring := pyround (similarity * 100)
  , content :=
      if skills_list.isEmpty then 0
      else pyround ((matched_skills.length : ℚ) / (skills_list.length : ℚ) * 100)
  , style := 86
  , ats := 100
  , sections := section_score }

/-- The distinct recommendation messages of `generate_recommendations`.
The two messages that interpolate a list carry that list as payload. -/
inductive Recommendation where
  | improveKeywordMatching
  | alignContent
  | addMissingSkills (skills : List (List Char))
  | useBulletPoints
  | avoidTablesGraphics
  | addMissingSections (secs : List (List Char))
  | wellPrepared
deriving DecidableEq

/-- Embedding of `generate_recommendations` from the source: six threshold
rules evaluated in order, each appending at most one message, followed by the
fallback well-prepared message when nothing fired. -/
def generate_recommendations (sc : Scores) (missing_skills missing_sections : List (List Char)) :
    List Recommendation :=
  let recs :=
    (if sc.tailoring < 60 then [Recommendation.improveKeywordMatching] else []) ++
    (if sc.content < 60 then [Recommendation.alignContent] else []) ++
    (if missing_skills.isEmpty then [] else [Recommendation.addMissingSkills missing_skills]) ++
    (if sc.style < 70 then [Recommendation.useBulletPoints] else []) ++
    (if sc.ats < 80 then [Recommendation.avoidTablesGraphics] else []) ++
    (if missing_sections.isEmpty then []
     else [Recommendation.addMissingSections missing_sections])
  if recs.isEmpty then [Recommendation.wellPrepared] else recs

/-- The list of messages appended by the six threshold rules of
`generate_recommendations`, in rule order: the source's `recs` variable
before the well-prepared fallback. -/
def ruleMessages (sc : Scores) (missing_skills missing_sections : List (List Char)) :
    List Recommendation :=
  (if sc.tailoring < 60 then [Recommendation.improveKeywordMatching] else []) ++
  (if sc.content < 60 then [Recommendation.alignContent] else []) ++
  (if missing_skills.isEmpty then [] else [Recommendation.addMissingSkills missing_skills]) ++
  (if sc.style < 70 then [Recommendation.useBulletPoints] else []) ++
  (if sc.ats < 80 then [Recommendation.avoidTablesGraphics] else []) ++
  (if missing_sections.isEmpty then []
   else [Recommendation.addMissingSections missing_sections])

/-- Maximal runs of word characters of a text, in order. -/
def wordRuns : List Char → List (List Char)
  | [] => []
  | c :: rest =>
    if isWordChar c then
      (c :: rest.takeWhile isWordChar) :: wordRuns (rest.dropWhile isWordChar)
    else wordRuns rest
termination_by l => l.length
decreasing_by
all_goals
  first
  | (simp only [List.length_cons]; omega)
  | (have hdw := length_dropWhile_le isWordChar rest
     simp only [List.length_cons] at hdw ⊢; omega)

/-- Join runs with single spaces between them. -/
def joinRuns : List (List Char) → List Char
  | [] => []
  | [r] => r
  | r :: s :: rest => r ++ ' ' :: joinRuns (s :: rest)

/-- Modelled from the spec, section 4.1: normalization lower-cases the text,
replaces every maximal run of non-word characters by a single space and trims
surrounding whitespace; equivalently, it joins the maximal word-character
runs of the lower-cased text with single spaces. -/
def normalizeSpec (text : List Char) : List Char :=
  joinRuns (wordRuns (strLower text))

theorem dropWhile_self_of_forall {p : Char → Bool} {l : List Char}
    (h : ∀ c ∈ l, p c = false) : l.dropWhile p = l := by
  cases l with
  | nil => rfl
  | cons c t => rw [List.dropWhile_cons, if_neg (by simp [h c (by simp)])]

theorem dropWhile_head_false {p : Char → Bool} {l : List Char} {c : Char} {t : List Char}
    (h : l.dropWhile p = c :: t) : p c = false := by
  induction l with
  | nil => simp at h
  | cons d u ih =>
    rw [List.dropWhile_cons] at h
    by_cases hd : p d = true
    · rw [if_pos hd] at h; exact ih h
    · rw [if_neg hd] at h
      cases h
      simp at hd
      exact hd

theorem dropWhile_append_of_ne_nil {p : Char → Bool} {x : List Char} (y : List Char)
    (h : x.dropWhile p ≠ []) : (x ++ y).dropWhile p = x.dropWhile p ++ y := by
  induction x with
  | nil => simp at h
  | cons c t ih =>
    by_cases hc : p c = true
    · rw [List.cons_append, List.dropWhile_cons, if_pos hc, List.dropWhile_cons, if_pos hc]
      rw [List.dropWhile_cons, if_pos hc] at h
      exact ih h
    · rw [List.cons_append, List.dropWhile_cons, if_neg hc, List.dropWhile_cons, if_neg hc,
        List.cons_append]

theorem dropWhile_ne_nil_of_mem {p : Char → Bool} {l : List Char} {c : Char}
    (hc : c ∈ l) (hp : p c = false) : l.dropWhile p ≠ [] := by
  intro h
  rw [List.dropWhile_eq_nil_iff] at h
  rw [h c hc] at hp
  simp at hp

theorem mem_of_mem_takeWhile {p : Char → Bool} {l : List Char} {c : Char}
    (h : c ∈ l.takeWhile p) : c ∈ l := by
  induction l with
  | nil => simp at h
  | cons d t ih =>
    rw [List.takeWhile_cons] at h
    by_cases hd : p d = true
    · rw [if_pos hd] at h
      rcases List.mem_cons.mp h with rfl | h
      · simp
      · exact List.mem_cons_of_mem _ (ih h)
    · rw [if_neg hd] at h; simp at h

theorem mem_of_mem_dropWhile {p : Char → Bool} {l : List Char} {c : Char}
    (h : c ∈ l.dropWhile p) : c ∈ l := by
  induction l with
  | nil => simp at h
  | cons d t ih =>
    rw [List.dropWhile_cons] at h
    by_cases hd : p d = true
    · rw [if_pos hd] at h
      exact List.mem_cons_of_mem _ (ih h)
    · rw [if_neg hd] at h; exact h

theorem takeWhile_eq_self_of_forall {p : Char → Bool} {l : List Char}
    (h : ∀ c ∈ l, p c = true) : l.takeWhile p = l := by
  induction l with
  | nil => rfl
  | cons c t ih =>
    rw [List.takeWhile_cons, if_pos (h c (by simp))]
    rw [ih (fun d hd => h d (List.mem_cons_of_mem _ hd))]

theorem takeWhile_append_of_forall {p : Char → Bool} {w : List Char} (l : List Char)
    (h : ∀ c ∈ w, p c = true) : (w ++ l).takeWhile p = w ++ l.takeWhile p := by
  induction w with
  | nil => simp
  | cons c t ih =>
    rw [List.cons_append, List.takeWhile_cons, if_pos (h c (by simp))]
    rw [ih (fun d hd => h d (List.mem_cons_of_mem _ hd)), List.cons_append]

theorem dropWhile_append_of_forall {p : Char → Bool} {w : List Char} (l : List Char)
    (h : ∀ c ∈ w, p c = true) : (w ++ l).dropWhile p = l.dropWhile p := by
  induction w with
  | nil => simp
  | cons c t ih =>
    rw [List.cons_append, List.dropWhile_cons, if_pos (h c (by simp))]
    exact ih (fun d hd => h d (List.mem_cons_of_mem _ hd))

theorem subNonWord_nil : subNonWord [] = [] := by rw [subNonWord]

theorem subNonWord_cons_word {c : Char} (t : List Char) (h : isWordChar c = true) :
    subNonWord (c :: t) = c :: subNonWord t := by
  rw [subNonWord, if_pos h]

theorem subNonWord_cons_nonword {c : Char} (t : List Char) (h : isWordChar c = false) :
    subNonWord (c :: t) =
      ' ' :: subNonWord (t.dropWhile (fun d => !isWordChar d)) := by
  rw [subNonWord, if_neg (by simp [h])]

theorem subNonWord_append_word {w : List Char} (l : List Char)
    (h : ∀ c ∈ w, isWordChar c = true) : subNonWord (w ++ l) = w ++ subNonWord l := by
  induction w with
  | nil => simp
  | cons c t ih =>
    rw [List.cons_append, subNonWord_cons_word _ (h c (by simp))]
    rw [ih (fun d hd => h d (List.mem_cons_of_mem _ hd)), List.cons_append]

theorem wordRuns_nil : wordRuns [] = [] := by rw [wordRuns]

theorem wordRuns_cons_word {c : Char} (t : List Char) (h : isWordChar c = true) :
    wordRuns (c :: t) = (c :: t.takeWhile isWordChar) :: wordRuns (t.dropWhile isWordChar) := by
  rw [wordRuns, if_pos h]

theorem wordRuns_cons_nonword {c : Char} (t : List Char) (h : isWordChar c = false) :
    wordRuns (c :: t) = wordRuns t := by
  rw [wordRuns, if_neg (by simp [h])]

theorem wordRuns_dropWhile (l : List Char) :
    wordRuns (l.dropWhile (fun d => !isWordChar d)) = wordRuns l := by
  induction l with
  | nil => rfl
  | cons c t ih =>
    rw [List.dropWhile_cons]
    by_cases hc : isWordChar c = true
    · rw [if_neg (by simp [hc])]
    · rw [if_pos (by simp [Bool.eq_false_iff.mpr hc]),
        wordRuns_cons_nonword _ (Bool.eq_false_iff.mpr (by simp [hc]))]
      exact ih

theorem wordRuns_all {m : List Char} :
    ∀ r ∈ wordRuns m, r ≠ [] ∧ ∀ c ∈ r, isWordChar c = true := by
  induction m using wordRuns.induct with
  | case1 => simp [wordRuns_nil]
  | case2 c rest h ih =>
    rw [wordRuns_cons_word _ h]
    intro r hr
    rcases List.mem_cons.mp hr with rfl | hr
    · refine ⟨by simp, ?_⟩
      intro d hd
      rcases List.mem_cons.mp hd with rfl | hd
      · exact h
      · exact List.mem_takeWhile_imp hd
    · exact ih r hr
  | case3 c rest h ih =>
    rw [wordRuns_cons_nonword _ (by simpa using h)]
    exact ih

theorem wordRuns_chars {m : List Char} :
    ∀ r ∈ wordRuns m, ∀ c ∈ r, c ∈ m := by
  induction m using wordRuns.induct with
  | case1 => simp [wordRuns_nil]
  | case2 c rest h ih =>
    rw [wordRuns_cons_word _ h]
    intro r hr d hd
    rcases List.mem_cons.mp hr with rfl | hr
    · rcases List.mem_cons.mp hd with rfl | hd
      · simp
      · exact List.mem_cons_of_mem _ (mem_of_mem_takeWhile hd)
    · exact List.mem_cons_of_mem _ (mem_of_mem_dropWhile (ih r hr d hd))
  | case3 c rest h ih =>
    rw [wordRuns_cons_nonword _ (by simpa using h)]
    intro r hr d hd
    exact List.mem_cons_of_mem _ (ih r hr d hd)

theorem word_not_space {c : Char} (h : isWordChar c = true) : isPySpace c = false := by
  rw [Bool.eq_false_iff]
  intro hs
  simp only [isPySpace, Bool.or_eq_true, beq_iff_eq] at hs
  rcases hs with ((((rfl | rfl) | rfl) | rfl) | rfl) | rfl <;> revert h <;> decide

theorem stripLeft_cons_space {c : Char} (l : List Char) (h : isPySpace c = true) :
    stripLeft (c :: l) = stripLeft l := by
  rw [stripLeft, List.dropWhile_cons, if_pos h, stripLeft]

theorem stripLeft_cons_nonspace {c : Char} (l : List Char) (h : isPySpace c = false) :
    stripLeft (c :: l) = c :: l := by
  rw [stripLeft, List.dropWhile_cons, if_neg (by simp [h])]

theorem stripText_of_no_space {l : List Char} (h : ∀ c ∈ l, isPySpace c = false) :
    stripText l = l := by
  rw [stripText, stripLeft, dropWhile_self_of_forall h, stripRight,
    dropWhile_self_of_forall (fun c hc => h c (List.mem_reverse.mp hc)), List.reverse_reverse]

theorem stripRight_append {y : List Char} (x : List Char) {c : Char}
    (hc : c ∈ y) (hcf : isPySpace c = false) :
    stripRight (x ++ y) = x ++ stripRight y := by
  rw [stripRight, List.reverse_append,
    dropWhile_append_of_ne_nil _ (dropWhile_ne_nil_of_mem (List.mem_reverse.mpr hc) hcf),
    List.reverse_append, List.reverse_reverse, stripRight]

theorem stripSub_eq_aux :
    ∀ (n : ℕ) (m : List Char), m.length ≤ n →
      stripText (subNonWord m) = joinRuns (wordRuns m) := by
  intro n
  induction n with
  | zero =>
    intro m hm
    have hnil : m = [] := List.length_eq_zero.mp (Nat.le_zero.mp hm)
    subst hnil
    rw [subNonWord_nil, wordRuns_nil]
    rfl
  | succ n ih =>
    intro m hm
    match m with
    | [] =>
      rw [subNonWord_nil, wordRuns_nil]
      rfl
    | c :: t =>
      by_cases hc : isWordChar c = true
      · have hwall : ∀ d ∈ c :: t.takeWhile isWordChar, isWordChar d = true := by
          intro d hd
          rcases List.mem_cons.mp hd with rfl | hd
          · exact hc
          · exact List.mem_takeWhile_imp hd
        have hsub : subNonWord (c :: t) =
            (c :: t.takeWhile isWordChar) ++ subNonWord (t.dropWhile isWordChar) := by
          conv_lhs =>
            rw [show (c :: t) = (c :: t.takeWhile isWordChar) ++ t.dropWhile isWordChar from by
              rw [List.cons_append, List.takeWhile_append_dropWhile]]
          exact subNonWord_append_word _ hwall
        have hruns := wordRuns_cons_word t hc
        cases hR : t.dropWhile isWordChar with
        | nil =>
          rw [hsub, hR, subNonWord_nil, List.append_nil, hruns, hR, wordRuns_nil]
          exact stripText_of_no_space (fun d hd => word_not_space (hwall d hd))
        | cons d r' =>
          have hdnw : isWordChar d = false := dropWhile_head_false hR
          rw [hsub, hR, subNonWord_cons_nonword _ hdnw, hruns, hR,
            wordRuns_cons_nonword _ hdnw, ← wordRuns_dropWhile r']
          cases hR2 : r'.dropWhile (fun x => !isWordChar x) with
          | nil =>
            rw [subNonWord_nil, wordRuns_nil]
            have hleft : stripLeft (c :: (t.takeWhile isWordChar ++ [' '])) =
                c :: (t.takeWhile isWordChar ++ [' ']) :=
              stripLeft_cons_nonspace _ (word_not_space hc)
            have hright : stripRight (c :: (t.takeWhile isWordChar ++ [' '])) =
                c :: t.takeWhile isWordChar := by
              have h1 : c :: (t.takeWhile isWordChar ++ [' ']) =
                  (c :: t.takeWhile isWordChar) ++ [' '] := by
                rw [List.cons_append]
              rw [h1, stripRight, List.reverse_append,
                show (([' '] : List Char).reverse ++ (c :: t.takeWhile isWordChar).reverse) =
                  ' ' :: (c :: t.takeWhile isWordChar).reverse from rfl,
                List.dropWhile_cons, if_pos (by decide),
                dropWhile_self_of_forall (fun e he =>
                  word_not_space (hwall e (List.mem_reverse.mp he))),
                List.reverse_reverse]
            rw [stripText]
            simp only [List.cons_append]
            rw [hleft, hright]
            rfl
          | cons e r'' =>
            have hew : isWordChar e = true := by
              have he := dropWhile_head_false hR2
              simpa using he
            have hlen : (e :: r'').length ≤ n := by
              have h1 := length_dropWhile_le (fun x => !isWordChar x) r'
              have h2 := length_dropWhile_le isWordChar t
              rw [hR2] at h1
              rw [hR] at h2
              simp only [List.length_cons] at h1 h2 hm ⊢
              omega
            have hIH := ih (e :: r'') hlen
            have hXhead : subNonWord (e :: r'') = e :: subNonWord r'' :=
              subNonWord_cons_word _ hew
            have hmemX : e ∈ subNonWord (e :: r'') := by
              rw [hXhead]; simp
            have hleft : stripLeft (c :: (t.takeWhile isWordChar ++ ' ' :: subNonWord (e :: r''))) =
                c :: (t.takeWhile isWordChar ++ ' ' :: subNonWord (e :: r'')) :=
              stripLeft_cons_nonspace _ (word_not_space hc)
            have hright : stripRight (c :: (t.takeWhile isWordChar ++ ' ' :: subNonWord (e :: r''))) =
                ((c :: t.takeWhile isWordChar) ++ [' ']) ++ stripRight (subNonWord (e :: r'')) := by
              have h1 : c :: (t.takeWhile isWordChar ++ ' ' :: subNonWord (e :: r'')) =
                  ((c :: t.takeWhile isWordChar) ++ [' ']) ++ subNonWord (e :: r'') := by
                simp only [List.cons_append, List.append_assoc, List.singleton_append,
                  List.nil_append]
              rw [h1]
              exact stripRight_append _ hmemX (word_not_space hew)
            have hstripX : stripRight (subNonWord (e :: r'')) = joinRuns (wordRuns (e :: r'')) := by
              rw [← hIH, stripText, hXhead, stripLeft_cons_nonspace _ (word_not_space hew)]
            rw [stripText]
            simp only [List.cons_append]
            rw [hleft, hright, hstripX, wordRuns_cons_word _ hew]
            rw [show joinRuns ((c :: t.takeWhile isWordChar) ::
                (e :: r''.takeWhile isWordChar) :: wordRuns (r''.dropWhile isWordChar)) =
              (c :: t.takeWhile isWordChar) ++ ' ' ::
                joinRuns ((e :: r''.takeWhile isWordChar) ::
                  wordRuns (r''.dropWhile isWordChar)) from rfl]
            simp only [List.append_assoc, List.singleton_append, List.cons_append,
              List.nil_append]
      · have hcf : isWordChar c = false := by simpa using hc
        rw [subNonWord_cons_nonword t hcf, wordRuns_cons_nonword t hcf, ← wordRuns_dropWhile t]
        have hlen : (t.dropWhile (fun d => !isWordChar d)).length ≤ n := by
          have h1 := length_dropWhile_le (fun d => !isWordChar d) t
          simp only [List.length_cons] at hm
          omega
        rw [← ih _ hlen, stripText, stripText, stripLeft_cons_space _ (by decide)]

theorem preprocess_eq_normalizeSpec (text : List Char) :
    preprocess_text text = normalizeSpec text := by
  rw [preprocess_text, normalizeSpec]
  exact stripSub_eq_aux (strLower text).length _ le_rfl

theorem toLower_toLower (c : Char) : c.toLower.toLower = c.toLower := by
  have hval : ∀ n : Nat, n.isValidChar → (Char.ofNat n).toNat = n := fun n h => by
    simp [Char.ofNat, h, Char.ofNatAux, Char.toNat, UInt32.toNat, BitVec.toNat_ofNatLt]
  by_cases h : 65 ≤ c.toNat ∧ c.toNat ≤ 90
  · have hv : (c.toNat + 32).isValidChar := Or.inl (by omega)
    have h1 : c.toLower = Char.ofNat (c.toNat + 32) := by
      simp only [Char.toLower]
      rw [if_pos]
      exact h
    rw [h1]
    simp only [Char.toLower, hval _ hv]
    rw [if_neg (by omega)]
  · have h1 : c.toLower = c := by
      simp only [Char.toLower]
      rw [if_neg]
      exact h
    rw [h1, h1]

theorem strLower_joinRuns (rs : List (List Char)) :
    strLower (joinRuns rs) = joinRuns (rs.map strLower) := by
  induction rs using joinRuns.induct with
  | case1 => rfl
  | case2 r => rfl
  | case3 r s rest ih =>
    rw [show joinRuns (r :: s :: rest) = r ++ ' ' :: joinRuns (s :: rest) from rfl,
      strLower, List.map_append, List.map_cons]
    rw [show Char.toLower ' ' = ' ' from by decide]
    rw [show (joinRuns (s :: rest)).map Char.toLower = strLower (joinRuns (s :: rest)) from rfl,
      ih, List.map_cons]
    rfl

theorem strLower_run_fix {l r : List Char} (hr : r ∈ wordRuns (strLower l)) :
    strLower r = r := by
  have hfix : ∀ c ∈ r, Char.toLower c = c := by
    intro c hc
    have hcl : c ∈ strLower l := wordRuns_chars r hr c hc
    rw [strLower] at hcl
    obtain ⟨a, _, rfl⟩ := List.mem_map.mp hcl
    exact toLower_toLower a
  calc strLower r = r.map id := List.map_congr_left hfix
  _ = r := List.map_id r

theorem wordRuns_append_run {w : List Char} (l : List Char) (hw : w ≠ [])
    (hall : ∀ c ∈ w, isWordChar c = true)
    (hl : l = [] ∨ ∃ d t, l = d :: t ∧ isWordChar d = false) :
    wordRuns (w ++ l) = w :: wordRuns l := by
  cases w with
  | nil => exact absurd rfl hw
  | cons c w' =>
    rw [List.cons_append, wordRuns_cons_word _ (hall c (by simp))]
    rw [takeWhile_append_of_forall _ (fun d hd => hall d (List.mem_cons_of_mem _ hd)),
      dropWhile_append_of_forall _ (fun d hd => hall d (List.mem_cons_of_mem _ hd))]
    have htl : l.takeWhile isWordChar = [] := by
      rcases hl with rfl | ⟨d, t, rfl, hd⟩
      · rfl
      · rw [List.takeWhile_cons, if_neg (by simp [hd])]
    have hdl : l.dropWhile isWordChar = l := by
      rcases hl with rfl | ⟨d, t, rfl, hd⟩
      · rfl
      · rw [List.dropWhile_cons, if_neg (by simp [hd])]
    rw [htl, hdl, List.append_nil]

theorem wordRuns_joinRuns :
    ∀ rs : List (List Char),
      (∀ r ∈ rs, r ≠ [] ∧ ∀ c ∈ r, isWordChar c = true) →
      wordRuns (joinRuns rs) = rs
  | [], _ => by rw [show joinRuns [] = [] from rfl, wordRuns_nil]
  | [r], h => by
    obtain ⟨hne, hall⟩ := h r (by simp)
    have hr := wordRuns_append_run [] hne hall (Or.inl rfl)
    rw [List.append_nil, wordRuns_nil] at hr
    rw [show joinRuns [r] = r from rfl, hr]
  | r :: s :: rest, h => by
    obtain ⟨hne, hall⟩ := h r (by simp)
    rw [show joinRuns (r :: s :: rest) = r ++ ' ' :: joinRuns (s :: rest) from rfl,
      wordRuns_append_run _ hne hall (Or.inr ⟨' ', joinRuns (s :: rest), rfl, by decide⟩),
      wordRuns_cons_nonword _ (by decide),
      wordRuns_joinRuns (s :: rest) (fun q hq => h q (List.mem_cons_of_mem _ hq))]

theorem strLower_preprocess (l : List Char) :
    strLower (preprocess_text l) = preprocess_text l := by
  rw [preprocess_eq_normalizeSpec, normalizeSpec, strLower_joinRuns]
  congr 1
  calc (wordRuns (strLower l)).map strLower
      = (wordRuns (strLower l)).map id :=
        List.map_congr_left (fun r hr => strLower_run_fix hr)
  _ = wordRuns (strLower l) := List.map_id _

theorem preprocess_idem_helper (l : List Char) :
    preprocess_text (preprocess_text l) = preprocess_text l := by
  conv_lhs => rw [preprocess_eq_normalizeSpec (preprocess_text l)]
  rw [normalizeSpec, strLower_preprocess l]
  rw [preprocess_eq_normalizeSpec l, normalizeSpec]
  rw [wordRuns_joinRuns _ (fun r hr => wordRuns_all r hr)]

theorem preprocess_nil : preprocess_text [] = [] := by
  rw [preprocess_text, show strLower [] = [] from rfl, subNonWord_nil]
  rfl

theorem pyround_ge_floor (q : ℚ) : ⌊q⌋ ≤ pyround q := by
  rw [pyround]
  split_ifs <;> omega

theorem pyround_le_floor_add_one (q : ℚ) : pyround q ≤ ⌊q⌋ + 1 := by
  rw [pyround]
  split_ifs <;> omega

theorem le_pyround {n : ℤ} {q : ℚ} (h : (n : ℚ) ≤ q) : n ≤ pyround q :=
  le_trans (Int.le_floor.mpr h) (pyround_ge_floor q)

theorem pyround_le {n : ℤ} {q : ℚ} (h : q ≤ (n : ℚ)) : pyround q ≤ n := by
  have hf : ⌊q⌋ ≤ n := by
    have hmono := Int.floor_mono h
    rwa [Int.floor_intCast] at hmono
  rcases lt_or_eq_of_le hf with hlt | heq
  · calc pyround q ≤ ⌊q⌋ + 1 := pyround_le_floor_add_one q
    _ ≤ n := by omega
  · have h1 : q ≤ (⌊q⌋ : ℚ) := by rw [heq]; exact_mod_cast h
    have h2 : (⌊q⌋ : ℚ) ≤ q := Int.floor_le q
    have hq0 : q - ⌊q⌋ < 1 / 2 := by linarith
    rw [pyround, if_pos hq0]
    exact hf

theorem pyround_mono {q1 q2 : ℚ} (h : q1 ≤ q2) : pyround q1 ≤ pyround q2 := by
  have hf := Int.floor_mono h
  rcases lt_or_eq_of_le hf with hlt | heq
  · calc pyround q1 ≤ ⌊q1⌋ + 1 := pyround_le_floor_add_one q1
    _ ≤ ⌊q2⌋ := by omega
    _ ≤ pyround q2 := pyround_ge_floor q2
  · rw [pyround, pyround, ← heq]
    have hr : q1 - ⌊q1⌋ ≤ q2 - ⌊q1⌋ := by linarith
    split_ifs <;> first | omega | (exfalso; linarith)

theorem pyround_intCast (z : ℤ) : pyround (z : ℚ) = z := by
  rw [pyround, Int.floor_intCast, sub_self, if_pos (by norm_num)]

theorem ratio_bounds {k n : ℕ} (hn : 0 < n) (hk : k ≤ n) :
    0 ≤ ((k : ℚ) / (n : ℚ) * 100) ∧ ((k : ℚ) / (n : ℚ) * 100) ≤ 100 := by
  have h1 : (k : ℚ) ≤ (n : ℚ) := by exact_mod_cast hk
  have h2 : (0 : ℚ) < (n : ℚ) := by exact_mod_cast hn
  constructor
  · positivity
  · rw [div_mul_eq_mul_div, div_le_iff h2]
    nlinarith

theorem pyround_ratio_bounds {k n : ℕ} (hn : 0 < n) (hk : k ≤ n) :
    0 ≤ pyround ((k : ℚ) / (n : ℚ) * 100) ∧ pyround ((k : ℚ) / (n : ℚ) * 100) ≤ 100 := by
  obtain ⟨hq0, hq1⟩ := ratio_bounds hn hk
  constructor
  · exact le_pyround (by exact_mod_cast hq0)
  · exact pyround_le (by exact_mod_cast hq1)

theorem count_filter_eq (p : List Char → Bool) (a : List Char) (l : List (List Char)) :
    (l.filter p).count a = if p a = true then l.count a else 0 := by
  induction l with
  | nil => simp
  | cons b l ih =>
    rw [List.filter_cons]
    by_cases hba : b = a
    · subst hba
      by_cases hp : p b = true
      · rw [if_pos hp, if_pos hp, List.count_cons, List.count_cons, ih, if_pos hp]
      · simp [hp, ih]
    · have hba2 : (b == a) = false := by simp [hba]
      by_cases hp : p b = true
      · rw [if_pos hp, List.count_cons, hba2, ih, List.count_cons, hba2]
        by_cases hpa : p a = true <;> simp [hpa]
      · rw [if_neg hp, ih, List.count_cons, hba2]
        by_cases hpa : p a = true <;> simp [hpa]

theorem length_filter_mono {α : Type} {p q : α → Bool} :
    ∀ l : List α, (∀ x ∈ l, p x = true → q x = true) →
      (l.filter p).length ≤ (l.filter q).length := by
  intro l
  induction l with
  | nil => simp
  | cons x l ih =>
    intro h
    rw [List.filter_cons, List.filter_cons]
    have hih := ih (fun y hy => h y (List.mem_cons_of_mem _ hy))
    by_cases hp : p x = true
    · rw [if_pos hp, if_pos (h x (by simp) hp)]
      simpa using hih
    · rw [if_neg hp]
      by_cases hq : q x = true
      · rw [if_pos hq]
        calc (l.filter p).length ≤ (l.filter q).length := hih
        _ ≤ (x :: l.filter q).length := by simp
      · rw [if_neg hq]
        exact hih

/-- C1 counterexample: the Tailoring metric is not clamped to [0,100].  With a
provider similarity of -1/2 (a legal cosine similarity) the source computes
`round(-0.5 * 100) = -50`, so the metric leaves [0,100]. -/
theorem scores_tailoring_not_clamped :
    ¬ (0 ≤ (scores (-(1 : ℚ) / 2) [] ["sql".toList] 0).tailoring ∧
       (scores (-(1 : ℚ) / 2) [] ["sql".toList] 0).tailoring ≤ 100) := by
  have h1 : (scores (-(1 : ℚ) / 2) [] ["sql".toList] 0).tailoring = -50 := by
    show pyround (-(1 : ℚ) / 2 * 100) = -50
    rw [show (-(1 : ℚ) / 2 * 100) = ((-50 : ℤ) : ℚ) from by norm_num, pyround_intCast]
  rw [h1]
  omega

/-- C1 (amended): the Content, Style, ATS-Compatibility and Sections metrics
are always integers in [0,100] when fed from `extract_skills` and
`check_sections`; the Tailoring metric `round(similarity * 100)` is within
[0,100] whenever the provider similarity lies in [0,1], but it is not
clamped outside that range. -/
theorem scores_metric_bounds (similarity : ℚ) (r j text : List Char)
    (skills_list matched : List (List Char)) (ssc : ℤ)
    (hm : matched = (extract_skills r j skills_list).1)
    (hs : ssc = (check_sections text).2.2) :
    0 ≤ (scores similarity matched skills_list ssc).content ∧
    (scores similarity matched skills_list ssc).content ≤ 100 ∧
    (scores similarity matched skills_list ssc).style = 86 ∧
    (scores similarity matched skills_list ssc).ats = 100 ∧
    0 ≤ (scores similarity matched skills_list ssc).sections ∧
    (scores similarity matched skills_list ssc).sections ≤ 100 ∧
    (0 ≤ similarity → similarity ≤ 1 →
      0 ≤ (scores similarity matched skills_list ssc).tailoring ∧
      (scores similarity matched skills_list ssc).tailoring ≤ 100) := by
  have hcontent : (scores similarity matched skills_list ssc).content =
      if skills_list.isEmpty then 0
      else pyround ((matched.length : ℚ) / (skills_list.length : ℚ) * 100) := rfl
  have hmlen : matched.length ≤ skills_list.length := by
    rw [hm, show (extract_skills r j skills_list).1 =
      skills_list.filter (fun s => decide (s <:+: strLower r)) from rfl]
    exact List.length_filter_le _ _
  have hcontent_bounds : 0 ≤ (scores similarity matched skills_list ssc).content ∧
      (scores similarity matched skills_list ssc).content ≤ 100 := by
    rw [hcontent]
    by_cases hE : skills_list.isEmpty
    · rw [if_pos hE]
      omega
    · rw [if_neg hE]
      have hne : skills_list ≠ [] := by
        intro hnil
        rw [hnil] at hE
        exact hE rfl
      exact pyround_ratio_bounds (List.length_pos.mpr hne) hmlen
  have hsec : (scores similarity matched skills_list ssc).sections = ssc := rfl
  have hsecval : (check_sections text).2.2 =
      pyround ((((sections.filter (fun p => sectionHit (strLower text) p.2)).map
          Prod.fst).length : ℚ) / (sections.length : ℚ) * 100) := rfl
  have hsec_bounds : 0 ≤ (scores similarity matched skills_list ssc).sections ∧
      (scores similarity matched skills_list ssc).sections ≤ 100 := by
    rw [hsec, hs, hsecval]
    apply pyround_ratio_bounds
    · rw [show sections.length = 6 from rfl]
      omega
    · rw [List.length_map]
      exact List.length_filter_le _ _
  refine ⟨hcontent_bounds.1, hcontent_bounds.2, rfl, rfl, hsec_bounds.1, hsec_bounds.2, ?_⟩
  intro h0 h1
  have htail : (scores similarity matched skills_list ssc).tailoring =
      pyround (similarity * 100) := rfl
  rw [htail]
  constructor
  · exact le_pyround (show ((0 : ℤ) : ℚ) ≤ similarity * 100 by push_cast; nlinarith)
  · exact pyround_le (show similarity * 100 ≤ ((100 : ℤ) : ℚ) by push_cast; nlinarith)

/-- C1 witness: the amended bounds at a concrete instance (similarity 1,
empty vocabulary and empty texts). -/
theorem scores_metric_bounds_witness :
    0 ≤ (scores 1 (extract_skills [] [] []).1 [] ((check_sections []).2.2)).content ∧
    0 ≤ (scores 1 (extract_skills [] [] []).1 [] ((check_sections []).2.2)).tailoring := by
  obtain ⟨h1, h2, h3, h4, h5, h6, h7⟩ :=
    scores_metric_bounds 1 [] [] [] [] (extract_skills [] [] []).1
      ((check_sections []).2.2) rfl rfl
  exact ⟨h1, (h7 zero_le_one le_rfl).1⟩

/-- C5: when either input is empty after normalization, the comparison
returns an absent similarity (`none`) rather than failing. -/
theorem compare_resume_with_job_empty_none (similarity : ℚ) (r j : List Char)
    (sk : List (List Char)) (h : preprocess_text r = [] ∨ preprocess_text j = []) :
    (compare_resume_with_job similarity r j sk).1 = none := by
  simp only [compare_resume_with_job]
  rw [if_pos h]

/-- C5 witness: the empty resume against a non-empty job description. -/
theorem compare_resume_with_job_empty_none_witness :
    (compare_resume_with_job 1 [] ("job description".toList) ["sql".toList]).1 = none :=
  compare_resume_with_job_empty_none 1 [] ("job description".toList) ["sql".toList]
    (Or.inl preprocess_nil)

/-- C9: when either input is empty after normalization, skill matching is
skipped entirely: both returned skill lists are empty. -/
theorem compare_resume_with_job_empty_skips_skills (similarity : ℚ) (r j : List Char)
    (sk : List (List Char)) (h : preprocess_text r = [] ∨ preprocess_text j = []) :
    (compare_resume_with_job similarity r j sk).2.1 = [] ∧
    (compare_resume_with_job similarity r j sk).2.2 = [] := by
  simp only [compare_resume_with_job]
  rw [if_pos h]
  exact ⟨rfl, rfl⟩

/-- C9 witness: the vocabulary skill occurs in the job description, yet both
lists come back empty because the resume is empty. -/
theorem compare_resume_with_job_empty_skips_skills_witness :
    (compare_resume_with_job 1 [] ("python developer".toList) ["python".toList]).2.1 = [] ∧
    (compare_resume_with_job 1 [] ("python developer".toList) ["python".toList]).2.2 = [] :=
  compare_resume_with_job_empty_skips_skills 1 [] ("python developer".toList)
    ["python".toList] (Or.inl preprocess_nil)

/-- C6: normalization is idempotent. -/
theorem preprocess_text_idempotent (text : List Char) :
    preprocess_text (preprocess_text text) = preprocess_text text :=
  preprocess_idem_helper text

/-- C6 witness: idempotence at a concrete text. -/
theorem preprocess_text_idempotent_witness :
    preprocess_text (preprocess_text ("  An,  Example!! x_1  ".toList)) =
      preprocess_text ("  An,  Example!! x_1  ".toList) :=
  preprocess_text_idempotent ("  An,  Example!! x_1  ".toList)

/-- C7: normalization lower-cases the text, replaces each maximal run of
non-word characters by a single space and trims whitespace — stated as
agreement with the spec-side description `normalizeSpec` (the word runs of
the lower-cased text joined by single spaces) — and the empty input yields
the empty output. -/
theorem preprocess_text_matches_spec (text : List Char) :
    preprocess_text text = normalizeSpec text ∧ preprocess_text [] = [] :=
  ⟨preprocess_eq_normalizeSpec text, preprocess_nil⟩

/-- C7 witness: the spec agreement at a concrete text. -/
theorem preprocess_text_matches_spec_witness :
    preprocess_text ("  An,  Example!! x_1  ".toList) =
      normalizeSpec ("  An,  Example!! x_1  ".toList) ∧
    preprocess_text [] = [] :=
  preprocess_text_matches_spec ("  An,  Example!! x_1  ".toList)

/-- C2: matched skills are exactly the vocabulary entries (in order, with
duplicates) occurring in the resume; missing skills are exactly the entries
occurring in the job description but not the resume; no skill is in both
lists, and a skill absent from both texts is in neither. -/
theorem extract_skills_spec (V : List (List Char)) (R J : List Char) :
    ((extract_skills R J V).1).Sublist V ∧
    ((extract_skills R J V).2).Sublist V ∧
    (∀ s, s ∈ (extract_skills R J V).1 ↔ s ∈ V ∧ s <:+: strLower R) ∧
    (∀ s, s ∈ (extract_skills R J V).2 ↔
      s ∈ V ∧ s <:+: strLower J ∧ ¬ s <:+: strLower R) ∧
    (∀ s, s ∈ (extract_skills R J V).1 → s ∉ (extract_skills R J V).2) ∧
    (∀ s, ¬ s <:+: strLower R → ¬ s <:+: strLower J →
      s ∉ (extract_skills R J V).1 ∧ s ∉ (extract_skills R J V).2) ∧
    (∀ s, (extract_skills R J V).1.count s =
      if s <:+: strLower R then V.count s else 0) ∧
    (∀ s, (extract_skills R J V).2.count s =
      if s <:+: strLower J ∧ ¬ s <:+: strLower R then V.count s else 0) := by
  have h1 : (extract_skills R J V).1 =
      V.filter (fun s => decide (s <:+: strLower R)) := rfl
  have h2 : (extract_skills R J V).2 =
      V.filter (fun s => decide (s <:+: strLower J) && !decide (s <:+: strLower R)) := rfl
  have hm1 : ∀ s, s ∈ (extract_skills R J V).1 ↔ s ∈ V ∧ s <:+: strLower R := by
    intro s
    rw [h1, List.mem_filter]
    simp
  have hm2 : ∀ s, s ∈ (extract_skills R J V).2 ↔
      s ∈ V ∧ s <:+: strLower J ∧ ¬ s <:+: strLower R := by
    intro s
    rw [h2, List.mem_filter]
    simp
  refine ⟨?_, ?_, hm1, hm2, ?_, ?_, ?_, ?_⟩
  · rw [h1]; exact List.filter_sublist V
  · rw [h2]; exact List.filter_sublist V
  · intro s hs1 hs2
    exact ((hm2 s).mp hs2).2.2 ((hm1 s).mp hs1).2
  · intro s hR hJ
    constructor
    · intro hs
      exact hR ((hm1 s).mp hs).2
    · intro hs
      exact hJ ((hm2 s).mp hs).2.1
  · intro s
    rw [h1, count_filter_eq]
    by_cases hs : s <:+: strLower R
    · rw [if_pos (decide_eq_true hs), if_pos hs]
    · rw [if_neg (by simp [hs]), if_neg hs]
  · intro s
    rw [h2, count_filter_eq]
    by_cases hs : s <:+: strLower J ∧ ¬ s <:+: strLower R
    · rw [if_pos (by simp [hs.1, hs.2]), if_pos hs]
    · rw [if_neg (by simpa using hs), if_neg hs]

/-- C2 witness: the two output lists are subsequences of the vocabulary at a
concrete instance (the resume and job description of the spec's Scenario A). -/
theorem extract_skills_spec_witness :
    ((extract_skills ("python developer with aws and docker experience".toList)
        ("looking for python sql docker expert".toList)
        ["python".toList, "sql".toList, "docker".toList, "aws".toList]).1).Sublist
      ["python".toList, "sql".toList, "docker".toList, "aws".toList] ∧
    ((extract_skills ("python developer with aws and docker experience".toList)
        ("looking for python sql docker expert".toList)
        ["python".toList, "sql".toList, "docker".toList, "aws".toList]).2).Sublist
      ["python".toList, "sql".toList, "docker".toList, "aws".toList] :=
  ⟨(extract_skills_spec ["python".toList, "sql".toList, "docker".toList, "aws".toList]
      ("python developer with aws and docker experience".toList)
      ("looking for python sql docker expert".toList)).1,
   (extract_skills_spec ["python".toList, "sql".toList, "docker".toList, "aws".toList]
      ("python developer with aws and docker experience".toList)
      ("looking for python sql docker expert".toList)).2.1⟩

/-- C3: found and missing sections partition the fixed six-section taxonomy
exactly (a permutation with no duplicates); a section is found iff one of
its keywords occurs in the lower-cased text; the score is
`round(found / 6 * 100)`. -/
theorem check_sections_spec (text : List Char) :
    ((check_sections text).1 ++ (check_sections text).2.1).Perm (sections.map Prod.fst) ∧
    ((check_sections text).1 ++ (check_sections text).2.1).Nodup ∧
    (∀ name, name ∈ (check_sections text).1 ↔
      ∃ kws, (name, kws) ∈ sections ∧ ∃ k ∈ kws, k <:+: strLower text) ∧
    (∀ name, name ∈ (check_sections text).2.1 ↔
      ∃ kws, (name, kws) ∈ sections ∧ ∀ k ∈ kws, ¬ k <:+: strLower text) ∧
    (check_sections text).2.2 =
      pyround (((check_sections text).1.length : ℚ) / 6 * 100) := by
  have h1 : (check_sections text).1 =
      (sections.filter (fun p => sectionHit (strLower text) p.2)).map Prod.fst := rfl
  have h2 : (check_sections text).2.1 =
      (sections.filter (fun p => !sectionHit (strLower text) p.2)).map Prod.fst := rfl
  have hperm : ((check_sections text).1 ++ (check_sections text).2.1).Perm
      (sections.map Prod.fst) := by
    rw [h1, h2, ← List.map_append]
    exact (List.filter_append_perm _ sections).map Prod.fst
  refine ⟨hperm, ?_, ?_, ?_, ?_⟩
  · exact hperm.symm.nodup (by decide)
  · intro name
    rw [h1]
    simp only [List.mem_map, List.mem_filter, sectionHit, List.any_eq_true,
      decide_eq_true_eq]
    constructor
    · rintro ⟨⟨n, kws⟩, ⟨hmem, hhit⟩, rfl⟩
      exact ⟨kws, hmem, hhit⟩
    · rintro ⟨kws, hmem, k, hk, hin⟩
      exact ⟨(name, kws), ⟨hmem, k, hk, hin⟩, rfl⟩
  · intro name
    rw [h2]
    simp only [List.mem_map, List.mem_filter, sectionHit, Bool.not_eq_true',
      List.any_eq_false, decide_eq_false_iff_not, decide_eq_true_eq]
    constructor
    · rintro ⟨⟨n, kws⟩, ⟨hmem, hmiss⟩, rfl⟩
      exact ⟨kws, hmem, hmiss⟩
    · rintro ⟨kws, hmem, hmiss⟩
      exact ⟨(name, kws), ⟨hmem, hmiss⟩, rfl⟩
  · rw [show (check_sections text).2.2 =
      pyround ((((sections.filter (fun p => sectionHit (strLower text) p.2)).map
          Prod.fst).length : ℚ) / (sections.length : ℚ) * 100) from rfl, h1]
    rw [show sections.length = 6 from rfl]
    norm_num

/-- C3 witness: the partition and score shape at a concrete text. -/
theorem check_sections_spec_witness :
    ((check_sections ("education and experience".toList)).1 ++
        (check_sections ("education and experience".toList)).2.1).Perm
      (sections.map Prod.fst) ∧
    (check_sections ("education and experience".toList)).2.2 =
      pyround (((check_sections ("education and experience".toList)).1.length : ℚ) /
        6 * 100) :=
  ⟨(check_sections_spec ("education and experience".toList)).1,
   (check_sections_spec ("education and experience".toList)).2.2.2.2⟩

/-- C4: the recommendation generator evaluates exactly the six threshold
rules of `ruleMessages` in fixed order, each appending at most one message:
whenever at least one rule fired the result is exactly that list, and the
well-prepared message appears exactly when no rule fired; each rule's
message is indeed produced whenever its condition holds; and when every
metric meets its threshold and both missing lists are empty the result is
exactly the single well-prepared message. -/
theorem generate_recommendations_spec (sc : Scores) (ms msec : List (List Char)) :
    (ruleMessages sc ms msec ≠ [] →
      generate_recommendations sc ms msec = ruleMessages sc ms msec) ∧
    (ruleMessages sc ms msec = [] →
      generate_recommendations sc ms msec = [Recommendation.wellPrepared]) ∧
    (sc.tailoring < 60 →
      Recommendation.improveKeywordMatching ∈ generate_recommendations sc ms msec) ∧
    (sc.content < 60 →
      Recommendation.alignContent ∈ generate_recommendations sc ms msec) ∧
    (ms ≠ [] →
      Recommendation.addMissingSkills ms ∈ generate_recommendations sc ms msec) ∧
    (sc.style < 70 →
      Recommendation.useBulletPoints ∈ generate_recommendations sc ms msec) ∧
    (sc.ats < 80 →
      Recommendation.avoidTablesGraphics ∈ generate_recommendations sc ms msec) ∧
    (msec ≠ [] →
      Recommendation.addMissingSections msec ∈ generate_recommendations sc ms msec) ∧
    (60 ≤ sc.tailoring → 60 ≤ sc.content → ms = [] → 70 ≤ sc.style → 80 ≤ sc.ats →
      msec = [] → generate_recommendations sc ms msec = [Recommendation.wellPrepared]) := by
  have hbridge : generate_recommendations sc ms msec =
      if (ruleMessages sc ms msec).isEmpty then [Recommendation.wellPrepared]
      else ruleMessages sc ms msec := rfl
  have hne_case : ruleMessages sc ms msec ≠ [] →
      generate_recommendations sc ms msec = ruleMessages sc ms msec := by
    intro hne
    rw [hbridge, if_neg (fun hE => hne (List.isEmpty_iff.mp hE))]
  have hmem : ∀ x, x ∈ ruleMessages sc ms msec →
      x ∈ generate_recommendations sc ms msec := by
    intro x hx
    have hne : ruleMessages sc ms msec ≠ [] := by
      intro h0
      rw [h0] at hx
      simp at hx
    rw [hne_case hne]
    exact hx
  refine ⟨hne_case, ?_, ?_, ?_, ?_, ?_, ?_, ?_, ?_⟩
  · intro h0
    rw [hbridge, h0]
    rfl
  · intro h
    exact hmem _ (by simp [ruleMessages, h])
  · intro h
    exact hmem _ (by simp [ruleMessages, h])
  · intro h
    exact hmem _ (by simp [ruleMessages, List.isEmpty_iff, h])
  · intro h
    exact hmem _ (by simp [ruleMessages, h])
  · intro h
    exact hmem _ (by simp [ruleMessages, h])
  · intro h
    exact hmem _ (by simp [ruleMessages, List.isEmpty_iff, h])
  · intro h1 h2 h3 h4 h5 h6
    subst h3
    subst h6
    simp [generate_recommendations, not_lt.mpr h1, not_lt.mpr h2, not_lt.mpr h4,
      not_lt.mpr h5]

/-- C4 witness: with all metrics at their thresholds and nothing missing,
exactly the well-prepared message is produced; and with a below-threshold
Tailoring score the keyword-matching message is produced. -/
theorem generate_recommendations_spec_witness :
    generate_recommendations (Scores.mk 60 60 86 100 100) [] [] =
      [Recommendation.wellPrepared] ∧
    Recommendation.improveKeywordMatching ∈
      generate_recommendations (Scores.mk 0 60 86 100 100) [] [] := by
  constructor
  · obtain ⟨-, -, -, -, -, -, -, -, hD⟩ :=
      generate_recommendations_spec (Scores.mk 60 60 86 100 100) [] []
    exact hD (by decide) (by decide) rfl (by decide) (by decide) rfl
  · obtain ⟨-, -, hrule, -⟩ :=
      generate_recommendations_spec (Scores.mk 0 60 86 100 100) [] []
    exact hrule (by decide)

/-- C10: the Style metric is the constant 86 and the ATS metric the constant
100 at the aggregation site, so the bullet-point rule (threshold 70) and the
tables/graphics rule (threshold 80) can never fire, whatever the inputs. -/
theorem scores_placeholder_rules_never_fire (similarity : ℚ)
    (matched skills_list ms msec : List (List Char)) (ssc : ℤ) :
    (generate_recommendations (scores similarity matched skills_list ssc) ms msec).count
        Recommendation.useBulletPoints = 0 ∧
    (generate_recommendations (scores similarity matched skills_list ssc) ms msec).count
        Recommendation.avoidTablesGraphics = 0 := by
  constructor
  all_goals
    simp only [generate_recommendations,
      show (scores similarity matched skills_list ssc).style = 86 from rfl,
      show (scores similarity matched skills_list ssc).ats = 100 from rfl,
      if_neg (show ¬ (86 : ℤ) < 70 by omega),
      if_neg (show ¬ (100 : ℤ) < 80 by omega)]
    by_cases h1 : (scores similarity matched skills_list ssc).tailoring < 60 <;>
    by_cases h2 : (scores similarity matched skills_list ssc).content < 60 <;>
    by_cases h3 : ms.isEmpty = true <;>
    by_cases h4 : msec.isEmpty = true <;>
    simp [h1, h2, h3, h4, List.count_append, List.count_cons]

/-- C10 witness: neither placeholder-guarded message occurs at a concrete
instance. -/
theorem scores_placeholder_rules_never_fire_witness :
    (generate_recommendations (scores 1 [] [] 0) [] []).count
        Recommendation.useBulletPoints = 0 ∧
    (generate_recommendations (scores 1 [] [] 0) [] []).count
        Recommendation.avoidTablesGraphics = 0 :=
  scores_placeholder_rules_never_fire 1 [] [] [] [] 0

/-- C8: the section score is monotone: if every keyword occurring in the
first lower-cased text also occurs in the second, the second text's section
score is at least the first's. -/
theorem check_sections_score_monotone (t1 t2 : List Char)
    (h : ∀ p ∈ sections, ∀ kw ∈ p.2,
      kw <:+: strLower t1 → kw <:+: strLower t2) :
    (check_sections t1).2.2 ≤ (check_sections t2).2.2 := by
  have hfil : ∀ p ∈ sections, sectionHit (strLower t1) p.2 = true →
      sectionHit (strLower t2) p.2 = true := by
    intro p hp hhit
    rw [sectionHit, List.any_eq_true] at hhit ⊢
    obtain ⟨k, hk, hkp⟩ := hhit
    exact ⟨k, hk, decide_eq_true (h p hp k hk (of_decide_eq_true hkp))⟩
  have hlen : ((sections.filter (fun p => sectionHit (strLower t1) p.2)).map
      Prod.fst).length ≤
      ((sections.filter (fun p => sectionHit (strLower t2) p.2)).map Prod.fst).length := by
    rw [List.length_map, List.length_map]
    exact length_filter_mono sections hfil
  rw [show (check_sections t1).2.2 =
      pyround ((((sections.filter (fun p => sectionHit (strLower t1) p.2)).map
          Prod.fst).length : ℚ) / (sections.length : ℚ) * 100) from rfl,
    show (check_sections t2).2.2 =
      pyround ((((sections.filter (fun p => sectionHit (strLower t2) p.2)).map
          Prod.fst).length : ℚ) / (sections.length : ℚ) * 100) from rfl]
  apply pyround_mono
  have hc : ((((sections.filter (fun p => sectionHit (strLower t1) p.2)).map
      Prod.fst).length : ℚ)) ≤
      (((sections.filter (fun p => sectionHit (strLower t2) p.2)).map
        Prod.fst).length : ℚ) := by
    exact_mod_cast hlen
  have h6 : (0 : ℚ) < (sections.length : ℚ) := by
    rw [show sections.length = 6 from rfl]
    norm_num
  apply mul_le_mul_of_nonneg_right _ (by norm_num : (0 : ℚ) ≤ 100)
  exact (div_le_div_iff_of_pos_right h6).mpr hc

/-- C8 witness: adding an explicit experience mention cannot lower the score. -/
theorem check_sections_score_monotone_witness :
    (check_sections ("education".toList)).2.2 ≤
      (check_sections ("education experience".toList)).2.2 :=
  check_sections_score_monotone ("education".toList) ("education experience".toList)
    (by decide)

end Matcher
